import Mathlib

/-!
Verification of the anodi module (binary_anodi.py): multipoint histograms of
binary images, the Jensen-Shannon divergence between them, and the anodi
inconsistency/diversity scores.

Machine integers (numpy int64) are modelled as Int with an explicit wrap into
the two's-complement range; numpy float results are modelled as real numbers,
with a dedicated constructor for NaN where the code can produce one; calls
that raise a Python exception are modelled with Except.
-/

/-- A Python exception escaping a library call (numpy / scipy / sklearn raise
ValueError in every failure path relevant here). -/
inductive PyErr where
  | valueError : PyErr
deriving DecidableEq

/-- A numpy float64 result: either NaN or an ordinary value (modelled as a
real number; exact real arithmetic stands in for float arithmetic). -/
inductive PyFloat where
  | nan : PyFloat
  | val : ℝ → PyFloat

/-- Whether a PyFloat is NaN. -/
def PyFloat.isNan : PyFloat → Bool
  | .nan => true
  | .val _ => false

/-- The real number held by a PyFloat (junk 0 for NaN; only used under a
no-NaN guard). -/
def PyFloat.toReal : PyFloat → ℝ
  | .nan => 0
  | .val x => x

/-- Wrap an integer into the signed 64-bit (two's complement) range
[-2^63, 2^63), i.e. the value an int64 register holds after the exact
computation, reduced modulo 2^64. -/
def i64 (z : ℤ) : ℤ := (z + 2 ^ 63) % 2 ^ 64 - 2 ^ 63

/-- The int64 value of the numpy expression 1 << j (left shift wraps modulo
2^64 in 64-bit arithmetic). -/
def shl1 (j : ℕ) : ℤ := i64 (2 ^ j)

/-- The int64 weight vector 1 << np.arange(m-1, -1, -1) used by bin2dec:
[1 << (m-1), ..., 1 << 1, 1 << 0]. -/
def weights (m : ℕ) : List ℤ := (List.range m).map fun i => shl1 (m - 1 - i)

/-- bin2dec from binary_anodi.py: x.dot(1 << np.arange(x.shape[-1]-1, -1, -1)),
the dot product of a bit row with the big-endian int64 place values, carried
out in int64 arithmetic (so the result is the exact dot product wrapped into
the signed 64-bit range). -/
def bin2dec (x : List ℤ) : ℤ := i64 ((List.zipWith (· * ·) x (weights x.length)).sum)

/-- Exact (unbounded) big-endian value of a bit list: the first element is
the most significant bit.  This is the Pattern ID the spec describes. -/
def beVal : List ℤ → ℤ
  | [] => 0
  | b :: xs => b * 2 ^ xs.length + beVal xs

/-- Inverse of the big-endian encoding: the length-m bit list (entries 0/1,
first element most significant) of a natural number. -/
def natBits : ℕ → ℕ → List ℤ
  | 0, _ => []
  | m + 1, n => ((n / 2 ^ m : ℕ) : ℤ) :: natBits m (n % 2 ^ m)

/-- A length-m bit row (m ≥ 64) whose only set bit carries int64 weight
1 << 63: all zeros except a single 1 at index m - 64. -/
def msbRow (m : ℕ) : List ℤ := List.replicate (m - 64) 0 ++ 1 :: List.replicate 63 0

/-- Width of an image stored as a list of rows (numpy shape[1]; rows of a
numpy 2-D array all have this length). -/
def width (img : List (List ℕ)) : ℕ := (img.headD []).length

/-- The k-by-k sub-window of an image whose top-left corner is (i, j). -/
def patchAt (img : List (List ℕ)) (i j k : ℕ) : List (List ℕ) :=
  ((img.drop i).take k).map fun row => (row.drop j).take k

/-- All k-by-k sliding-window patches of an image, top-left corners in
row-major order, stride 1 (what sklearn extract_patches_2d returns when the
patch fits). -/
def extractAll (img : List (List ℕ)) (k : ℕ) : List (List (List ℕ)) :=
  (List.range (img.length - k + 1)).flatMap fun i =>
    (List.range (width img - k + 1)).map fun j => patchAt img i j k

/-- Modelled from the spec: the external sklearn patch extraction
(extract_patches_2d is not part of this repository).  Per its documented
contract and the spec (section 4.2 / 6), it returns every stride-1 sliding
k-by-k window, and raises ValueError when the patch exceeds an image
dimension. -/
def extract_patches_2d (img : List (List ℕ)) (k : ℕ) :
    Except PyErr (List (List (List ℕ))) :=
  if img.length < k ∨ width img < k then .error .valueError
  else .ok (extractAll img k)

/-- Row-major flattening of a patch followed by bin2dec: the pattern ID of a
patch, exactly as multipoint_histogram computes it (reshape to a row, then
bin2dec). -/
def encodePatch (p : List (List ℕ)) : ℤ := bin2dec (p.flatten.map fun (v : ℕ) => (v : ℤ))

/-- The pattern IDs of all patches of an image (the array handed to
np.bincount inside multipoint_histogram). -/
def patchIds (img : List (List ℕ)) (k : ℕ) : List ℤ := (extractAll img k).map encodePatch

/-- The largest value of a list of (nonnegative) int64s, as a natural
number; 0 for the empty list. -/
def idsMax (xs : List ℤ) : ℕ := xs.foldr (fun a b => max a.toNat b) 0

/-- np.bincount: raises ValueError on any negative input, otherwise returns
the counts of 0, 1, ..., padded with minlength semantics: the output length
is max(minlength, largest value + 1) (just minlength when the input is
empty). -/
def bincount (xs : List ℤ) (minlength : ℕ) : Except PyErr (List ℕ) :=
  if xs.any fun a => decide (a < 0) then .error .valueError
  else .ok ((List.range (max minlength (if xs.isEmpty then 0 else idsMax xs + 1))).map
    fun (i : ℕ) => xs.count (i : ℤ))

/-- multipoint_histogram from binary_anodi.py: extract all k-by-k patches,
flatten each patch to a bit row, encode with bin2dec, and count occurrences
with np.bincount(..., minlength = 2^(k*k)). -/
def multipoint_histogram (img : List (List ℕ)) (k : ℕ) : Except PyErr (List ℕ) :=
  match extract_patches_2d img k with
  | .error e => .error e
  | .ok patches => bincount (patches.map encodePatch) (2 ^ (k * k))

/-- The 8-by-8 binary image whose only set pixel is the top-left one. -/
def img8cex : List (List ℕ) := (1 :: List.replicate 7 0) :: List.replicate 7 (List.replicate 8 0)

/-- scipy.special.rel_entr summand on the domain where it is finite:
x * log(x / y) with the convention 0 * log(0 / y) = 0.  (rel_entr is +inf
for x > 0, y = 0; in jsd the second argument is the mixture, which vanishes
only where the first does, so that case is unreachable and the junk value of
Real.log there is never used.) -/
noncomputable def relEntr (x y : ℝ) : ℝ := if x = 0 then 0 else x * Real.log (x / y)

/-- Modelled from the spec: discrete Kullback-Leibler divergence of two
equal-length probability vectors, sum of x * log(x / y) with the
0 * log(0 / y) = 0 convention, natural log. -/
noncomputable def klList (p m : List ℝ) : ℝ := (List.zipWith relEntr p m).sum

/-- scipy.stats.entropy(pk, qk): both arguments are first normalized by
their own sums, then sum of rel_entr over the pairs. -/
noncomputable def entropy (pk qk : List ℝ) : ℝ :=
  (List.zipWith relEntr (pk.map fun x => x / pk.sum) (qk.map fun x => x / qk.sum)).sum

/-- p.astype(float) / np.sum(p): a histogram of counts divided by its own
sum. -/
noncomputable def normalizeL (p : List ℕ) : List ℝ :=
  p.map fun (x : ℕ) => (x : ℝ) / ((p.sum : ℕ) : ℝ)

/-- m = 0.5 * (p + q), elementwise. -/
noncomputable def mixL (p q : List ℝ) : List ℝ := List.zipWith (fun a b => 0.5 * (a + b)) p q

/-- jsd from binary_anodi.py on histograms with nonzero sums: normalize both
histograms, form the mixture, and return 0.5 * (entropy(p, m) + entropy(q, m)).
(The zero-sum NaN path is modelled by jsdPy below.) -/
noncomputable def jsd (p q : List ℕ) : ℝ :=
  0.5 * (entropy (normalizeL p) (mixL (normalizeL p) (normalizeL q)) +
    entropy (normalizeL q) (mixL (normalizeL p) (normalizeL q)))

/-- Modelled from the spec: normalize each histogram by its own sum, form
the mixture m = 0.5 * (p + q), return 0.5 * KL(p, m) + 0.5 * KL(q, m). -/
noncomputable def jsd_spec (p q : List ℕ) : ℝ :=
  0.5 * klList (normalizeL p) (mixL (normalizeL p) (normalizeL q)) +
    0.5 * klList (normalizeL q) (mixL (normalizeL p) (normalizeL q))

/-- The float64 value jsd(p, q) actually returns.  When a histogram sums to
zero, every entry of the normalized array is 0/0 = NaN, NaN propagates
through the mixture and through scipy entropy, and the function returns NaN
(the code raises nothing: it contains no validation and no exception
class). -/
noncomputable def jsdPy (p q : List ℕ) : PyFloat :=
  if p.sum = 0 ∨ q.sum = 0 then .nan else .val (jsd p q)

/-- np.mean of a list of float64 values: NaN on the empty list (mean of an
empty slice) and whenever any input is NaN; otherwise the arithmetic
mean. -/
noncomputable def meanPy (xs : List PyFloat) : PyFloat :=
  if xs.isEmpty || xs.any PyFloat.isNan then .nan
  else .val ((xs.map PyFloat.toReal).sum / xs.length)

/-- The ordered pairs (x_i, x_j), i < j, of a list, in the row-major order
scipy pdist visits them. -/
def offDiagPairs : List α → List (α × α)
  | [] => []
  | x :: xs => (xs.map fun y => (x, y)) ++ offDiagPairs xs

/-- scipy pdist over histograms with metric jsd: raises ValueError on an
empty observation list (it is not a 2-D array), otherwise the jsd value of
every unordered pair, each pair computed once. -/
noncomputable def pdistJsd (hs : List (List ℕ)) : Except PyErr (List PyFloat) :=
  if hs.isEmpty then .error .valueError
  else .ok ((offDiagPairs hs).map fun pr => jsdPy pr.1 pr.2)

/-- anodi from binary_anodi.py: the multipoint histogram of the reference
and of every candidate, then inconsistency = mean of jsd(hist0, h) over
candidates and diversity = mean of pdist(hists, metric=jsd). -/
noncomputable def anodi (img0 : List (List ℕ)) (imgs : List (List (List ℕ))) (k : ℕ) :
    Except PyErr (PyFloat × PyFloat) := do
  let h0 ← multipoint_histogram img0 k
  let hs ← imgs.mapM fun img => multipoint_histogram img k
  let dvs ← pdistJsd hs
  pure (meanPy (hs.map fun h => jsdPy h0 h), meanPy dvs)

theorem i64_eq_self {z : ℤ} (h1 : -(2 ^ 63) ≤ z) (h2 : z < 2 ^ 63) : i64 z = z := by
  unfold i64
  have e : (2 : ℤ) ^ 64 = 2 * 2 ^ 63 := by ring
  have h0 : 0 ≤ z + 2 ^ 63 := by linarith
  have h3 : z + 2 ^ 63 < 2 ^ 64 := by linarith
  rw [Int.emod_eq_of_lt h0 h3]
  ring

theorem i64_lb (z : ℤ) : -(2 ^ 63) ≤ i64 z := by
  unfold i64
  have h := Int.emod_nonneg (z + 2 ^ 63) (show (2 : ℤ) ^ 64 ≠ 0 by positivity)
  linarith

theorem i64_ub (z : ℤ) : i64 z < 2 ^ 63 := by
  unfold i64
  have e : (2 : ℤ) ^ 64 = 2 * 2 ^ 63 := by ring
  have h := Int.emod_lt_of_pos (z + 2 ^ 63) (show (0 : ℤ) < 2 ^ 64 by positivity)
  linarith

theorem shl1_eq {j : ℕ} (h : j ≤ 62) : shl1 j = 2 ^ j := by
  unfold shl1
  apply i64_eq_self
  · have : (0 : ℤ) ≤ 2 ^ j := by positivity
    have : (0 : ℤ) < 2 ^ 63 := by positivity
    linarith
  · calc (2 : ℤ) ^ j ≤ 2 ^ 62 := pow_le_pow_right₀ (by norm_num) h
      _ < 2 ^ 63 := by norm_num

theorem shl1_63 : shl1 63 = -(2 ^ 63) := by
  unfold shl1 i64
  rw [show (2 : ℤ) ^ 63 + 2 ^ 63 = 2 ^ 64 by ring, Int.emod_self]
  ring

theorem weights_succ (m : ℕ) : weights (m + 1) = shl1 m :: weights m := by
  simp only [weights, List.range_succ_eq_map, List.map_cons, List.map_map,
    Nat.add_sub_cancel, Nat.sub_zero]
  congr 1
  apply List.map_congr_left
  intro a _
  simp only [Function.comp_apply, Nat.succ_eq_add_one]
  congr 1
  omega

theorem dot_weights_eq_beVal : ∀ x : List ℤ, (∀ v ∈ x, v = 0 ∨ v = 1) → x.length ≤ 63 →
    (List.zipWith (· * ·) x (weights x.length)).sum = beVal x := by
  intro x
  induction x with
  | nil => intro _ _; simp [beVal, weights]
  | cons b xs ih =>
    intro hbin hlen
    simp only [List.length_cons] at hlen
    have hx : xs.length ≤ 63 := by omega
    have hlt : xs.length ≤ 62 := by omega
    rw [List.length_cons, weights_succ, List.zipWith_cons_cons, List.sum_cons,
      shl1_eq hlt, ih (fun v hv => hbin v (List.mem_cons_of_mem _ hv)) hx]
    rfl

theorem beVal_nonneg : ∀ x : List ℤ, (∀ v ∈ x, v = 0 ∨ v = 1) → 0 ≤ beVal x := by
  intro x
  induction x with
  | nil => intro _; simp [beVal]
  | cons b xs ih =>
    intro hbin
    have hb := hbin b (List.mem_cons_self b xs)
    have hr := ih fun v hv => hbin v (List.mem_cons_of_mem _ hv)
    have hp : (0 : ℤ) ≤ 2 ^ xs.length := by positivity
    show 0 ≤ b * 2 ^ xs.length + beVal xs
    rcases hb with h | h <;> subst h <;> nlinarith

theorem beVal_lt : ∀ x : List ℤ, (∀ v ∈ x, v = 0 ∨ v = 1) → beVal x < 2 ^ x.length := by
  intro x
  induction x with
  | nil => intro _; simp [beVal]
  | cons b xs ih =>
    intro hbin
    have hb := hbin b (List.mem_cons_self b xs)
    have hr := ih fun v hv => hbin v (List.mem_cons_of_mem _ hv)
    have hp : (2 : ℤ) ^ (xs.length + 1) = 2 * 2 ^ xs.length := by ring
    have hq : (0 : ℤ) < 2 ^ xs.length := by positivity
    show b * 2 ^ xs.length + beVal xs < 2 ^ (b :: xs).length
    simp only [List.length_cons]
    rcases hb with h | h <;> subst h <;> nlinarith

theorem bin2dec_exact (x : List ℤ) (hbin : ∀ v ∈ x, v = 0 ∨ v = 1)
    (hlen : x.length ≤ 63) : bin2dec x = beVal x := by
  unfold bin2dec
  rw [dot_weights_eq_beVal x hbin hlen]
  apply i64_eq_self
  · have h1 := beVal_nonneg x hbin
    have h2 : (0 : ℤ) < 2 ^ 63 := by positivity
    linarith
  · have h1 := beVal_lt x hbin
    have h2 : (2 : ℤ) ^ x.length ≤ 2 ^ 63 := pow_le_pow_right₀ (by norm_num) hlen
    linarith

theorem natBits_length : ∀ m n : ℕ, (natBits m n).length = m := by
  intro m
  induction m with
  | zero => intro n; rfl
  | succ m ih => intro n; simp [natBits, ih]

theorem natBits_binary : ∀ m n : ℕ, n < 2 ^ m → ∀ v ∈ natBits m n, v = 0 ∨ v = 1 := by
  intro m
  induction m with
  | zero => intro n _ v hv; simp [natBits] at hv
  | succ m ih =>
    intro n hn v hv
    simp only [natBits, List.mem_cons] at hv
    rcases hv with h | h
    · have hdiv : n / 2 ^ m < 2 := by
        apply Nat.div_lt_of_lt_mul
        have : 2 ^ (m + 1) = 2 ^ m * 2 := by ring
        omega
      subst h
      have h01 : n / 2 ^ m = 0 ∨ n / 2 ^ m = 1 :=
        Nat.le_one_iff_eq_zero_or_eq_one.mp (Nat.lt_succ_iff.mp hdiv)
      rcases h01 with h | h <;> simp [h]
    · exact ih (n % 2 ^ m) (Nat.mod_lt _ (Nat.pos_pow_of_pos m (by norm_num))) v h

theorem beVal_natBits : ∀ m n : ℕ, n < 2 ^ m → beVal (natBits m n) = (n : ℤ) := by
  intro m
  induction m with
  | zero =>
    intro n hn
    have : n = 0 := by simpa using hn
    simp [natBits, beVal, this]
  | succ m ih =>
    intro n hn
    have hmod : n % 2 ^ m < 2 ^ m := Nat.mod_lt _ (Nat.pos_pow_of_pos m (by norm_num))
    show ((n / 2 ^ m : ℕ) : ℤ) * 2 ^ (natBits m (n % 2 ^ m)).length + beVal (natBits m (n % 2 ^ m)) = (n : ℤ)
    rw [natBits_length, ih (n % 2 ^ m) hmod]
    have hdm := Nat.div_add_mod n (2 ^ m)
    have hz : (2 ^ m : ℤ) * ((n / 2 ^ m : ℕ) : ℤ) + ((n % 2 ^ m : ℕ) : ℤ) = (n : ℤ) := by
      exact_mod_cast hdm
    linarith

theorem natBits_beVal : ∀ x : List ℤ, (∀ v ∈ x, v = 0 ∨ v = 1) →
    natBits x.length (beVal x).toNat = x := by
  intro x
  induction x with
  | nil => intro _; rfl
  | cons b xs ih =>
    intro hbin
    have hb := hbin b (List.mem_cons_self b xs)
    have hxs : ∀ v ∈ xs, v = 0 ∨ v = 1 := fun v hv => hbin v (List.mem_cons_of_mem _ hv)
    have hr0 : 0 ≤ beVal xs := beVal_nonneg xs hxs
    have hrlt : beVal xs < 2 ^ xs.length := beVal_lt xs hxs
    have hcast : ((2 ^ xs.length : ℕ) : ℤ) = 2 ^ xs.length := by push_cast; ring
    have ht : (beVal xs).toNat < 2 ^ xs.length := by omega
    have htv : ((beVal xs).toNat : ℤ) = beVal xs := Int.toNat_of_nonneg hr0
    show natBits (xs.length + 1) (beVal (b :: xs)).toNat = b :: xs
    have hbe : beVal (b :: xs) = b * 2 ^ xs.length + beVal xs := rfl
    rcases hb with h | h
    · subst h
      have hN : (beVal ((0 : ℤ) :: xs)).toNat = (beVal xs).toNat := by
        rw [hbe]; ring_nf
      rw [hN]
      show ((((beVal xs).toNat / 2 ^ xs.length : ℕ)) : ℤ) :: natBits xs.length ((beVal xs).toNat % 2 ^ xs.length) = 0 :: xs
      rw [Nat.div_eq_of_lt ht, Nat.mod_eq_of_lt ht]
      simp [ih hxs]
    · subst h
      have hN : (beVal ((1 : ℤ) :: xs)).toNat = 2 ^ xs.length + (beVal xs).toNat := by
        rw [hbe]; omega
      rw [hN]
      show ((((2 ^ xs.length + (beVal xs).toNat) / 2 ^ xs.length : ℕ)) : ℤ) ::
        natBits xs.length ((2 ^ xs.length + (beVal xs).toNat) % 2 ^ xs.length) = 1 :: xs
      have hpos : 0 < 2 ^ xs.length := Nat.pos_pow_of_pos xs.length (by norm_num)
      have hdiv : (2 ^ xs.length + (beVal xs).toNat) / 2 ^ xs.length = 1 := by
        rw [Nat.add_comm, Nat.add_div_right _ hpos, Nat.div_eq_of_lt ht]
      have hmod : (2 ^ xs.length + (beVal xs).toNat) % 2 ^ xs.length = (beVal xs).toNat := by
        rw [Nat.add_comm, Nat.add_mod_right, Nat.mod_eq_of_lt ht]
      rw [hdiv, hmod]
      simp [ih hxs]

theorem zip_mul_replicate_zero_append : ∀ (n : ℕ) (ys zs : List ℤ),
    (List.zipWith (· * ·) (List.replicate n 0 ++ ys) zs).sum =
      (List.zipWith (· * ·) ys (zs.drop n)).sum := by
  intro n
  induction n with
  | zero => intro ys zs; simp
  | succ n ih =>
    intro ys zs
    cases zs with
    | nil => simp
    | cons z zs =>
      simp only [List.replicate_succ, List.cons_append, List.zipWith_cons_cons,
        List.sum_cons, zero_mul, zero_add, List.drop_succ_cons]
      exact ih ys zs

theorem weights_drop : ∀ a b : ℕ, (weights (a + b)).drop a = weights b := by
  intro a
  induction a with
  | zero => intro b; simp
  | succ a ih =>
    intro b
    have h : a + 1 + b = (a + b) + 1 := by omega
    rw [h, weights_succ, List.drop_succ_cons, ih]

theorem bin2dec_msbRow (m : ℕ) (hm : 64 ≤ m) : bin2dec (msbRow m) = -(2 ^ 63) := by
  obtain ⟨a, rfl⟩ : ∃ a, m = a + 64 := ⟨m - 64, by omega⟩
  have hlen : (msbRow (a + 64)).length = a + 64 := by
    simp only [msbRow, List.length_append, List.length_replicate, List.length_cons]
    omega
  have hz : (List.zipWith (· * ·) (List.replicate 63 (0 : ℤ)) (weights 63)).sum = 0 := by
    have h := zip_mul_replicate_zero_append 63 ([] : List ℤ) (weights 63)
    simpa using h
  have key : (List.zipWith (· * ·) (msbRow (a + 64)) (weights (a + 64))).sum = shl1 63 := by
    unfold msbRow
    rw [Nat.add_sub_cancel, zip_mul_replicate_zero_append, weights_drop,
      show weights 64 = shl1 63 :: weights 63 from weights_succ 63,
      List.zipWith_cons_cons, List.sum_cons, one_mul, hz]
    ring
  show i64 ((List.zipWith (· * ·) (msbRow (a + 64)) (weights (msbRow (a + 64)).length)).sum) = -(2 ^ 63)
  rw [hlen, key, shl1_63]
  apply i64_eq_self
  · exact le_refl _
  · have : (0 : ℤ) < 2 ^ 63 := by positivity
    linarith

/-- C10: bin2dec builds its place values with a fixed-width int64 left
shift, so the Pattern ID contract (a nonnegative result below 2^m for an
m-bit row) holds exactly for rows of length m up to 63; for every m of at
least 64 the arithmetic wraps modulo 2^64 and there is a bit row whose
returned ID is negative (the bit whose weight is 1 shifted left 63 times). -/
theorem c10_int64_wrap :
    (∀ x : List ℤ, (∀ v ∈ x, v = 0 ∨ v = 1) → x.length ≤ 63 →
      0 ≤ bin2dec x ∧ bin2dec x < 2 ^ x.length) ∧
    (∀ m : ℕ, 64 ≤ m →
      (msbRow m).length = m ∧ (∀ v ∈ msbRow m, v = 0 ∨ v = 1) ∧ bin2dec (msbRow m) < 0) := by
  constructor
  · intro x hbin hlen
    rw [bin2dec_exact x hbin hlen]
    exact ⟨beVal_nonneg x hbin, beVal_lt x hbin⟩
  · intro m hm
    refine ⟨?_, ?_, ?_⟩
    · simp only [msbRow, List.length_append, List.length_replicate, List.length_cons]
      omega
    · intro v hv
      simp only [msbRow, List.mem_append, List.mem_cons, List.mem_replicate] at hv
      rcases hv with ⟨_, h⟩ | h | ⟨_, h⟩
      · exact Or.inl h
      · exact Or.inr h
      · exact Or.inl h
    · rw [bin2dec_msbRow m hm]
      have : (0 : ℤ) < 2 ^ 63 := by positivity
      linarith

/-- Witness for C10: the 3-bit row 101 satisfies the contract, and at m = 64
the single-set-bit row has a negative ID. -/
theorem c10_witness :
    (0 ≤ bin2dec [1, 0, 1] ∧ bin2dec [1, 0, 1] < 2 ^ (3 : ℕ)) ∧
    ((msbRow 64).length = 64 ∧ (∀ v ∈ msbRow 64, v = 0 ∨ v = 1) ∧ bin2dec (msbRow 64) < 0) := by
  constructor
  · have h := c10_int64_wrap.1 [1, 0, 1] (by decide) (by decide)
    simpa using h
  · exact c10_int64_wrap.2 64 (by norm_num)

/-- Counterexample for C9 at patch size k = 8: the row-major flattening of
the 8-by-8 patch whose first bit is the only set one is a 64-bit row, and
bin2dec maps it to a negative number, so the encoding does not map the
2^64 patches into (let alone onto) the interval from 0 to 2^64. -/
theorem c9_counterexample :
    ((1 : ℤ) :: List.replicate 63 0).length = 8 * 8 ∧
      bin2dec ((1 : ℤ) :: List.replicate 63 0) < 0 := by
  constructor
  · simp
  · have h : msbRow 64 = (1 : ℤ) :: List.replicate 63 0 := by
      simp [msbRow]
    rw [← h, bin2dec_msbRow 64 (by norm_num)]
    have : (0 : ℤ) < 2 ^ 63 := by positivity
    linarith

/-- C9 (amended): for patch sizes k up to 7 the pattern encoding is exact
and bijective: bin2dec of a flattened k-by-k binary patch is its big-endian
value (first element most significant), lies in the interval from 0 to
2^(k*k), and every integer in that interval is hit by exactly one patch.
(The original claim, quantified over every patch size, fails at k = 8: see
the counterexample.) -/
theorem c9_encoding_bijection (k : ℕ) (hk : k ≤ 7) :
    (∀ x : List ℤ, (∀ v ∈ x, v = 0 ∨ v = 1) → x.length = k * k →
      bin2dec x = beVal x ∧ 0 ≤ bin2dec x ∧ bin2dec x < 2 ^ (k * k)) ∧
    (∀ n : ℤ, 0 ≤ n → n < 2 ^ (k * k) →
      ∃! x : List ℤ, ((∀ v ∈ x, v = 0 ∨ v = 1) ∧ x.length = k * k) ∧ bin2dec x = n) := by
  have hkk : k * k ≤ 63 := le_trans (Nat.mul_le_mul hk hk) (by norm_num)
  constructor
  · intro x hbin hlen
    have h1 : x.length ≤ 63 := by omega
    refine ⟨bin2dec_exact x hbin h1, ?_, ?_⟩
    · rw [bin2dec_exact x hbin h1]
      exact beVal_nonneg x hbin
    · rw [bin2dec_exact x hbin h1, ← hlen]
      exact beVal_lt x hbin
  · intro n hn0 hnlt
    have hcast : ((2 ^ (k * k) : ℕ) : ℤ) = 2 ^ (k * k) := by push_cast; ring
    have ht : n.toNat < 2 ^ (k * k) := by omega
    have hbinb := natBits_binary (k * k) n.toNat ht
    have hlenb := natBits_length (k * k) n.toNat
    have hexact : bin2dec (natBits (k * k) n.toNat) = beVal (natBits (k * k) n.toNat) :=
      bin2dec_exact _ hbinb (by omega)
    refine ⟨natBits (k * k) n.toNat, ⟨⟨hbinb, hlenb⟩, ?_⟩, ?_⟩
    · rw [hexact, beVal_natBits (k * k) n.toNat ht, Int.toNat_of_nonneg hn0]
    · rintro y ⟨⟨hybin, hylen⟩, hyval⟩
      have hy : bin2dec y = beVal y := bin2dec_exact y hybin (by omega)
      have hbey : beVal y = n := by rw [← hy, hyval]
      have hmain := natBits_beVal y hybin
      rw [hylen, hbey] at hmain
      exact hmain.symm

/-- Witness for C9 at patch size k = 2. -/
theorem c9_witness :
    (∀ x : List ℤ, (∀ v ∈ x, v = 0 ∨ v = 1) → x.length = 2 * 2 →
      bin2dec x = beVal x ∧ 0 ≤ bin2dec x ∧ bin2dec x < 2 ^ (2 * 2)) ∧
    (∀ n : ℤ, 0 ≤ n → n < 2 ^ (2 * 2) →
      ∃! x : List ℤ, ((∀ v ∈ x, v = 0 ∨ v = 1) ∧ x.length = 2 * 2) ∧ bin2dec x = n) :=
  c9_encoding_bijection 2 (by norm_num)

theorem width_eq {img : List (List ℕ)} {W : ℕ} (hne : img ≠ [])
    (hW : ∀ row ∈ img, row.length = W) : width img = W := by
  cases img with
  | nil => exact absurd rfl hne
  | cons r t => exact hW r (List.mem_cons_self r t)

theorem flatten_length_of_uniform : ∀ (l : List (List ℕ)) (c : ℕ),
    (∀ r ∈ l, r.length = c) → l.flatten.length = l.length * c := by
  intro l c
  induction l with
  | nil => intro _; simp
  | cons r t ih =>
    intro h
    have hr := h r (List.mem_cons_self r t)
    have ht := ih fun s hs => h s (List.mem_cons_of_mem _ hs)
    simp only [List.flatten_cons, List.length_append, List.length_cons, hr, ht]
    ring

theorem extractAll_patch_props {img : List (List ℕ)} {W k : ℕ}
    (hW : ∀ row ∈ img, row.length = W)
    (hbin : ∀ row ∈ img, ∀ v ∈ row, v ≤ 1)
    (hk1 : 1 ≤ k) (hkH : k ≤ img.length) (hkW : k ≤ W) :
    ∀ p ∈ extractAll img k,
      (p.flatten.map fun (v : ℕ) => (v : ℤ)).length = k * k ∧
      ∀ w ∈ p.flatten.map fun (v : ℕ) => (v : ℤ), w = 0 ∨ w = 1 := by
  intro p hp
  have hne : img ≠ [] := by
    intro he
    rw [he] at hkH
    simp at hkH
    omega
  simp only [extractAll, List.mem_flatMap, List.mem_map, List.mem_range] at hp
  obtain ⟨i, hi, j, hj, rfl⟩ := hp
  rw [width_eq hne hW] at hj
  have hik : i + k ≤ img.length := by omega
  have hjk : j + k ≤ W := by omega
  have hrows : (patchAt img i j k).length = k := by
    simp only [patchAt, List.length_map, List.length_take, List.length_drop]
    omega
  have hcols : ∀ row ∈ patchAt img i j k, row.length = k := by
    intro row hrow
    simp only [patchAt, List.mem_map] at hrow
    obtain ⟨r, hr, rfl⟩ := hrow
    have hrimg : r ∈ img := List.mem_of_mem_drop (List.mem_of_mem_take hr)
    simp only [List.length_take, List.length_drop, hW r hrimg]
    omega
  constructor
  · rw [List.length_map, flatten_length_of_uniform _ k hcols, hrows]
  · intro w hw
    simp only [List.mem_map] at hw
    obtain ⟨v, hv, rfl⟩ := hw
    obtain ⟨row, hrow, hvrow⟩ := List.mem_flatten.mp hv
    simp only [patchAt, List.mem_map] at hrow
    obtain ⟨r, hr, rfl⟩ := hrow
    have hrimg : r ∈ img := List.mem_of_mem_drop (List.mem_of_mem_take hr)
    have hv1 : v ≤ 1 := hbin r hrimg v (List.mem_of_mem_drop (List.mem_of_mem_take hvrow))
    interval_cases v
    · exact Or.inl rfl
    · exact Or.inr rfl

theorem patchIds_bounds {img : List (List ℕ)} {W k : ℕ}
    (hW : ∀ row ∈ img, row.length = W)
    (hbin : ∀ row ∈ img, ∀ v ∈ row, v ≤ 1)
    (hk1 : 1 ≤ k) (hkH : k ≤ img.length) (hkW : k ≤ W) :
    ∀ a ∈ patchIds img k, a < 2 ^ (k * k) ∧ (k * k ≤ 63 → 0 ≤ a) := by
  intro a ha
  simp only [patchIds, List.mem_map] at ha
  obtain ⟨p, hp, rfl⟩ := ha
  obtain ⟨hlen, hbinf⟩ := extractAll_patch_props hW hbin hk1 hkH hkW p hp
  constructor
  · by_cases hkk : k * k ≤ 63
    · unfold encodePatch
      rw [bin2dec_exact _ hbinf (by omega)]
      have h := beVal_lt _ hbinf
      rwa [hlen] at h
    · have h1 : encodePatch p < 2 ^ 63 := i64_ub _
      have h2 : (2 : ℤ) ^ 63 ≤ 2 ^ (k * k) := pow_le_pow_right₀ (by norm_num) (by omega)
      linarith
  · intro hkk
    unfold encodePatch
    rw [bin2dec_exact _ hbinf (by omega)]
    exact beVal_nonneg _ hbinf

theorem idsMax_lt : ∀ (xs : List ℤ) (B : ℕ), 0 < B → (∀ a ∈ xs, a < (B : ℤ)) →
    idsMax xs < B := by
  intro xs B hB
  induction xs with
  | nil => intro _; simpa [idsMax]
  | cons a xs ih =>
    intro h
    have h1 := h a (List.mem_cons_self a xs)
    have h2 := ih fun b hb => h b (List.mem_cons_of_mem _ hb)
    show max a.toNat (idsMax xs) < B
    omega

theorem multipoint_ok_elim {img : List (List ℕ)} {k : ℕ} {h : List ℕ}
    (hok : multipoint_histogram img k = Except.ok h) :
    ¬(img.length < k ∨ width img < k) ∧
    (∀ a ∈ patchIds img k, 0 ≤ a) ∧
    h = (List.range (max (2 ^ (k * k))
        (if (patchIds img k).isEmpty then 0 else idsMax (patchIds img k) + 1))).map
      fun (i : ℕ) => (patchIds img k).count (i : ℤ) := by
  unfold multipoint_histogram extract_patches_2d at hok
  by_cases hg : img.length < k ∨ width img < k
  · simp [hg] at hok
  · simp only [hg, if_false] at hok
    have hids : (extractAll img k).map encodePatch = patchIds img k := rfl
    rw [hids] at hok
    unfold bincount at hok
    by_cases hneg : (patchIds img k).any fun a => decide (a < 0)
    · simp [hneg] at hok
    · simp only [hneg, Bool.false_eq_true, if_false, Except.ok.injEq] at hok
      refine ⟨hg, ?_, hok.symm⟩
      intro a ha
      simp only [List.any_eq_true, decide_eq_true_eq, not_exists, not_and, not_lt] at hneg
      exact hneg a ha

theorem getD_range_map : ∀ (n : ℕ) (f : ℕ → ℕ) (i : ℕ), i < n →
    ((List.range n).map f).getD i 0 = f i := by
  intro n
  induction n with
  | zero => intro f i hi; omega
  | succ n ih =>
    intro f i hi
    rw [List.range_succ_eq_map, List.map_cons, List.map_map]
    cases i with
    | zero => rfl
    | succ i =>
      rw [List.getD_cons_succ]
      have h := ih (fun j => f (j + 1)) i (by omega)
      simpa [Function.comp, Nat.succ_eq_add_one] using h

theorem sum_map_add_nat : ∀ (l : List ℕ) (f g : ℕ → ℕ),
    (l.map fun i => f i + g i).sum = (l.map f).sum + (l.map g).sum := by
  intro l f g
  induction l with
  | nil => simp
  | cons a l ih =>
    simp only [List.map_cons, List.sum_cons, ih]
    omega

theorem sum_indicator_range : ∀ n t : ℕ,
    ((List.range n).map fun i => if i = t then 1 else 0).sum = if t < n then 1 else 0 := by
  intro n t
  induction n with
  | zero => simp
  | succ n ih =>
    rw [List.range_succ, List.map_append, List.sum_append, ih]
    simp only [List.map_cons, List.map_nil, List.sum_cons, List.sum_nil]
    split_ifs <;> omega

theorem sum_counts_eq_length : ∀ (xs : List ℤ) (L : ℕ),
    (∀ a ∈ xs, 0 ≤ a ∧ a < (L : ℤ)) →
    ((List.range L).map fun (i : ℕ) => xs.count (i : ℤ)).sum = xs.length := by
  intro xs
  induction xs with
  | nil => intro L _; simp
  | cons a xs ih =>
    intro L h
    obtain ⟨ha0, haL⟩ := h a (List.mem_cons_self a xs)
    have hxs := fun b hb => h b (List.mem_cons_of_mem a hb)
    have hcount : ∀ i : ℕ, (a :: xs).count (i : ℤ) =
        xs.count (i : ℤ) + (if i = a.toNat then 1 else 0) := by
      intro i
      have hiff : (a = (i : ℤ)) ↔ (i = a.toNat) := by omega
      simp [List.count_cons, hiff]
    rw [List.map_congr_left fun i _ => hcount i, sum_map_add_nat, ih L hxs,
      sum_indicator_range]
    have ht : a.toNat < L := by omega
    simp [ht]

theorem sum_map_const_range : ∀ n c : ℕ, ((List.range n).map fun _ => c).sum = n * c := by
  intro n c
  induction n with
  | zero => simp
  | succ n ih =>
    rw [List.range_succ, List.map_append, List.sum_append, ih]
    simp
    ring

theorem extractAll_length (img : List (List ℕ)) (k : ℕ) :
    (extractAll img k).length = (img.length - k + 1) * (width img - k + 1) := by
  unfold extractAll
  rw [List.length_flatMap]
  simp only [Function.comp_def, List.length_map, List.length_range]
  rw [sum_map_const_range]

/-- C4: when the patch size exceeds an image dimension, multipoint_histogram
fails (the external patch extraction raises ValueError before any histogram
is built) and no histogram is returned. -/
theorem c4_invalid_patch_size (img : List (List ℕ)) (W k : ℕ)
    (hW : ∀ row ∈ img, row.length = W)
    (hbad : img.length < k ∨ W < k) :
    multipoint_histogram img k = Except.error PyErr.valueError := by
  have hg : img.length < k ∨ width img < k := by
    rcases hbad with h | h
    · exact Or.inl h
    · by_cases hH : img.length < k
      · exact Or.inl hH
      · right
        have hne : img ≠ [] := by
          intro he
          rw [he] at hH
          simp at hH
          omega
        rwa [width_eq hne hW]
  unfold multipoint_histogram extract_patches_2d
  simp [hg]

/-- Witness for C4: a 1-by-1 image with patch size 2. -/
theorem c4_witness :
    (∀ row ∈ [[(0 : ℕ)]], row.length = 1) ∧
      (([[(0 : ℕ)]] : List (List ℕ)).length < 2 ∨ 1 < 2) ∧
      multipoint_histogram [[(0 : ℕ)]] 2 = Except.error PyErr.valueError :=
  ⟨by decide, Or.inr (by norm_num),
    c4_invalid_patch_size [[(0 : ℕ)]] 1 2 (by decide) (Or.inr (by norm_num))⟩

/-- C7: whenever multipoint_histogram returns a histogram for a binary image,
that histogram has length exactly 2^(k*k), and entry i is the number of
patches encoding to ID i -- in particular an ID that never occurs
contributes a zero count, including the trailing IDs above the largest
observed one. -/
theorem c7_histogram_length (img : List (List ℕ)) (W k : ℕ) (h : List ℕ)
    (hW : ∀ row ∈ img, row.length = W)
    (hbin : ∀ row ∈ img, ∀ v ∈ row, v ≤ 1)
    (hk1 : 1 ≤ k) (hkH : k ≤ img.length) (hkW : k ≤ W)
    (hok : multipoint_histogram img k = Except.ok h) :
    h.length = 2 ^ (k * k) ∧
      ∀ i, i < 2 ^ (k * k) → h.getD i 0 = (patchIds img k).count (i : ℤ) := by
  obtain ⟨hg, hpos, hh⟩ := multipoint_ok_elim hok
  have hbounds := patchIds_bounds hW hbin hk1 hkH hkW
  have hcast : ((2 ^ (k * k) : ℕ) : ℤ) = 2 ^ (k * k) := by push_cast; ring
  have hlt : ∀ a ∈ patchIds img k, a < ((2 ^ (k * k) : ℕ) : ℤ) := by
    intro a ha
    rw [hcast]
    exact (hbounds a ha).1
  have hL : max (2 ^ (k * k))
      (if (patchIds img k).isEmpty then 0 else idsMax (patchIds img k) + 1) = 2 ^ (k * k) := by
    cases he : (patchIds img k).isEmpty with
    | true => simp [he]
    | false =>
      simp only [he, Bool.false_eq_true, if_false]
      have hm := idsMax_lt (patchIds img k) (2 ^ (k * k)) (by positivity) hlt
      omega
  rw [hh, hL]
  constructor
  · simp
  · intro i hi
    exact getD_range_map (2 ^ (k * k)) (fun j => (patchIds img k).count (j : ℤ)) i hi

/-- Witness for C7: the all-zero 2-by-2 image with patch size 2 yields the
length-16 histogram with a single count at ID 0. -/
theorem c7_witness :
    (∀ row ∈ [[(0 : ℕ), 0], [0, 0]], row.length = 2) ∧
      (∀ row ∈ [[(0 : ℕ), 0], [0, 0]], ∀ v ∈ row, v ≤ 1) ∧ (1 : ℕ) ≤ 2 ∧
      ((1 :: List.replicate 15 (0 : ℕ)).length = 2 ^ (2 * 2) ∧
        ∀ i, i < 2 ^ (2 * 2) →
          (1 :: List.replicate 15 (0 : ℕ)).getD i 0 =
            (patchIds [[(0 : ℕ), 0], [0, 0]] 2).count (i : ℤ)) :=
  ⟨by decide, by decide, by norm_num,
    c7_histogram_length [[(0 : ℕ), 0], [0, 0]] 2 2 (1 :: List.replicate 15 (0 : ℕ))
      (by decide) (by decide) (by norm_num) (by norm_num) (by norm_num) rfl⟩

theorem multipoint_eq_bincount {img : List (List ℕ)} {k : ℕ}
    (hg : ¬(img.length < k ∨ width img < k)) :
    multipoint_histogram img k = bincount (patchIds img k) (2 ^ (k * k)) := by
  unfold multipoint_histogram extract_patches_2d
  rw [if_neg hg]
  rfl

theorem bincount_ok {xs : List ℤ} {B : ℕ} (hB : 0 < B)
    (hbd : ∀ a ∈ xs, 0 ≤ a ∧ a < (B : ℤ)) :
    bincount xs B = Except.ok ((List.range B).map fun (i : ℕ) => xs.count (i : ℤ)) := by
  unfold bincount
  have hneg : (xs.any fun a => decide (a < 0)) = false := by
    simp only [List.any_eq_false, decide_eq_true_eq, not_lt]
    exact fun a ha => (hbd a ha).1
  have hL : max B (if xs.isEmpty then 0 else idsMax xs + 1) = B := by
    cases he : xs.isEmpty with
    | true => simp [he]
    | false =>
      simp only [he, Bool.false_eq_true, if_false]
      have hm := idsMax_lt xs B hB fun a ha => (hbd a ha).2
      omega
  rw [hneg]
  simp only [Bool.false_eq_true, if_false, hL]

/-- Counterexample for C8 at patch size k = 8: an 8-by-8 binary image whose
single set pixel gives its one patch the int64-wrapped (negative) ID
-(2^63), so np.bincount raises ValueError and no histogram entries exist to
sum, although k = 8 does not exceed either image dimension. -/
theorem c8_counterexample :
    multipoint_histogram img8cex 8 = Except.error PyErr.valueError := by rfl

/-- C8 (amended): for patch sizes k up to 7 (so that the 64-bit pattern
encoding cannot wrap), multipoint_histogram succeeds on every binary image
it fits in, and its entries sum to (H-k+1) * (W-k+1), the number of
stride-1 sliding-window positions.  (The original claim, quantified over
every fitting patch size, fails at k = 8: see the counterexample.) -/
theorem c8_histogram_sum (img : List (List ℕ)) (W k : ℕ)
    (hW : ∀ row ∈ img, row.length = W)
    (hbin : ∀ row ∈ img, ∀ v ∈ row, v ≤ 1)
    (hk1 : 1 ≤ k) (hk7 : k ≤ 7) (hkH : k ≤ img.length) (hkW : k ≤ W) :
    ∃ h, multipoint_histogram img k = Except.ok h ∧
      h.sum = (img.length - k + 1) * (W - k + 1) := by
  have hne : img ≠ [] := by
    intro he
    rw [he] at hkH
    simp at hkH
    omega
  have hwidth : width img = W := width_eq hne hW
  have hk49 : k * k ≤ 63 := by
    have := Nat.mul_le_mul hk7 hk7
    omega
  have hbounds := patchIds_bounds hW hbin hk1 hkH hkW
  have hcast : ((2 ^ (k * k) : ℕ) : ℤ) = 2 ^ (k * k) := by push_cast; ring
  have hbd : ∀ a ∈ patchIds img k, 0 ≤ a ∧ a < ((2 ^ (k * k) : ℕ) : ℤ) := by
    intro a ha
    refine ⟨(hbounds a ha).2 hk49, ?_⟩
    rw [hcast]
    exact (hbounds a ha).1
  have hg : ¬(img.length < k ∨ width img < k) := by
    rw [hwidth]
    omega
  refine ⟨_, (multipoint_eq_bincount hg).trans (bincount_ok (by positivity) hbd), ?_⟩
  rw [sum_counts_eq_length _ _ hbd]
  simp only [patchIds, List.length_map]
  rw [extractAll_length, hwidth]

/-- Witness for C8: the all-zero 2-by-2 image with patch size 2 has one
sliding-window position. -/
theorem c8_witness :
    (1 : ℕ) ≤ 2 ∧ (2 : ℕ) ≤ 7 ∧
    ∃ h, multipoint_histogram [[(0 : ℕ), 0], [0, 0]] 2 = Except.ok h ∧
      h.sum = (([[(0 : ℕ), 0], [0, 0]] : List (List ℕ)).length - 2 + 1) * (2 - 2 + 1) :=
  ⟨by norm_num, by norm_num,
    c8_histogram_sum [[(0 : ℕ), 0], [0, 0]] 2 2 (by decide) (by decide)
      (by norm_num) (by norm_num) (by norm_num) (by norm_num)⟩

theorem sum_map_cast_div : ∀ (l : List ℕ) (c : ℝ),
    (l.map fun x => ((x : ℕ) : ℝ) / c).sum = ((l.sum : ℕ) : ℝ) / c := by
  intro l c
  induction l with
  | nil => simp
  | cons a l ih =>
    simp only [List.map_cons, List.sum_cons, ih]
    push_cast
    ring

theorem normalizeL_sum {p : List ℕ} (hp : 0 < p.sum) : (normalizeL p).sum = 1 := by
  unfold normalizeL
  rw [sum_map_cast_div]
  have h2 : (0 : ℝ) < ((p.sum : ℕ) : ℝ) := by exact_mod_cast hp
  exact div_self h2.ne'

theorem normalizeL_nonneg (p : List ℕ) : ∀ a ∈ normalizeL p, 0 ≤ a := by
  intro a ha
  simp only [normalizeL, List.mem_map] at ha
  obtain ⟨x, _, rfl⟩ := ha
  positivity

theorem mixL_sum : ∀ ps qs : List ℝ, ps.length = qs.length →
    (mixL ps qs).sum = 0.5 * (ps.sum + qs.sum) := by
  intro ps
  induction ps with
  | nil =>
    intro qs h
    cases qs with
    | nil => simp [mixL]
    | cons b qs => simp at h
  | cons a ps ih =>
    intro qs h
    cases qs with
    | nil => simp at h
    | cons b qs =>
      simp only [List.length_cons, Nat.add_right_cancel_iff] at h
      simp only [mixL, List.zipWith_cons_cons, List.sum_cons]
      have hih := ih qs h
      simp only [mixL] at hih
      rw [hih]
      ring

theorem mixL_comm (ps qs : List ℝ) : mixL ps qs = mixL qs ps := by
  unfold mixL
  apply List.zipWith_comm_of_comm
  intro a b
  ring

theorem entropy_eq_klList {pk qk : List ℝ} (hp : pk.sum = 1) (hq : qk.sum = 1) :
    entropy pk qk = klList pk qk := by
  unfold entropy klList
  rw [hp, hq]
  simp

theorem jsd_eq_kl {p q : List ℕ} (hl : p.length = q.length) (hp : 0 < p.sum)
    (hq : 0 < q.sum) :
    jsd p q = 0.5 * (klList (normalizeL p) (mixL (normalizeL p) (normalizeL q)) +
      klList (normalizeL q) (mixL (normalizeL p) (normalizeL q))) := by
  unfold jsd
  have hps := normalizeL_sum hp
  have hqs := normalizeL_sum hq
  have hlen : (normalizeL p).length = (normalizeL q).length := by
    simp [normalizeL, hl]
  have hms : (mixL (normalizeL p) (normalizeL q)).sum = 1 := by
    rw [mixL_sum _ _ hlen, hps, hqs]
    norm_num
  rw [entropy_eq_klList hps hms, entropy_eq_klList hqs hms]

theorem relEntr_ge_sub {a c : ℝ} (ha : 0 ≤ a) (hac : a ≤ 2 * c) : a - c ≤ relEntr a c := by
  unfold relEntr
  by_cases h0 : a = 0
  · subst h0
    rw [if_pos rfl]
    linarith
  · rw [if_neg h0]
    have h : 0 < a := lt_of_le_of_ne ha (Ne.symm h0)
    have hc : 0 < c := by linarith
    have hlog := Real.log_le_sub_one_of_pos (div_pos hc h)
    have h2 : a * Real.log (c / a) ≤ a * (c / a - 1) :=
      mul_le_mul_of_nonneg_left hlog (le_of_lt h)
    have h5 : a * (c / a - 1) = c - a := by field_simp
    have h6 : a * Real.log (c / a) ≤ c - a := by linarith
    have h7 : Real.log (a / c) = -Real.log (c / a) := by
      rw [Real.log_div h.ne' hc.ne', Real.log_div hc.ne' h.ne']
      ring
    rw [h7]
    have h8 : a * -Real.log (c / a) = -(a * Real.log (c / a)) := by ring
    rw [h8]
    linarith

theorem relEntr_le_log_two {a c : ℝ} (ha : 0 ≤ a) (hac : a ≤ 2 * c) :
    relEntr a c ≤ Real.log 2 * a := by
  unfold relEntr
  by_cases h0 : a = 0
  · subst h0
    rw [if_pos rfl]
    simp
  · rw [if_neg h0]
    have h : 0 < a := lt_of_le_of_ne ha (Ne.symm h0)
    have hc : 0 < c := by linarith
    have hdiv : a / c ≤ 2 := by
      rw [div_le_iff₀ hc]
      linarith
    have hlog : Real.log (a / c) ≤ Real.log 2 := Real.log_le_log (div_pos h hc) hdiv
    calc a * Real.log (a / c) ≤ a * Real.log 2 :=
          mul_le_mul_of_nonneg_left hlog (le_of_lt h)
      _ = Real.log 2 * a := by ring

theorem klList_mix_ge : ∀ ps qs : List ℝ, ps.length = qs.length →
    (∀ a ∈ ps, 0 ≤ a) → (∀ b ∈ qs, 0 ≤ b) →
    ps.sum - (mixL ps qs).sum ≤ klList ps (mixL ps qs) := by
  intro ps
  induction ps with
  | nil =>
    intro qs h _ _
    simp [mixL, klList]
  | cons a ps ih =>
    intro qs h hp hq
    cases qs with
    | nil => simp at h
    | cons b qs =>
      simp only [List.length_cons, Nat.add_right_cancel_iff] at h
      have ha := hp a (List.mem_cons_self a ps)
      have hb := hq b (List.mem_cons_self b qs)
      have hps := fun x hx => hp x (List.mem_cons_of_mem a hx)
      have hqs := fun x hx => hq x (List.mem_cons_of_mem b hx)
      have hih := ih qs h hps hqs
      have hterm : a - 0.5 * (a + b) ≤ relEntr a (0.5 * (a + b)) :=
        relEntr_ge_sub ha (by linarith)
      simp only [mixL, klList, List.zipWith_cons_cons, List.sum_cons] at hih ⊢
      linarith

theorem klList_mix_le : ∀ ps qs : List ℝ, ps.length = qs.length →
    (∀ a ∈ ps, 0 ≤ a) → (∀ b ∈ qs, 0 ≤ b) →
    klList ps (mixL ps qs) ≤ Real.log 2 * ps.sum := by
  intro ps
  induction ps with
  | nil =>
    intro qs h _ _
    simp [mixL, klList]
  | cons a ps ih =>
    intro qs h hp hq
    cases qs with
    | nil => simp at h
    | cons b qs =>
      simp only [List.length_cons, Nat.add_right_cancel_iff] at h
      have ha := hp a (List.mem_cons_self a ps)
      have hb := hq b (List.mem_cons_self b qs)
      have hps := fun x hx => hp x (List.mem_cons_of_mem a hx)
      have hqs := fun x hx => hq x (List.mem_cons_of_mem b hx)
      have hih := ih qs h hps hqs
      have hterm : relEntr a (0.5 * (a + b)) ≤ Real.log 2 * a :=
        relEntr_le_log_two ha (by linarith)
      simp only [mixL, klList, List.zipWith_cons_cons, List.sum_cons] at hih ⊢
      have hx : Real.log 2 * (a + ps.sum) = Real.log 2 * a + Real.log 2 * ps.sum := by ring
      rw [hx]
      linarith

/-- C1: on equal-length histograms with positive sums, the entropy-routine
implementation of jsd equals the explicit KL-based Jensen-Shannon reference
formula: the inner renormalization scipy entropy performs is the identity
because the normalized histograms and their mixture already sum to one. -/
theorem c1_jsd_eq_spec (p q : List ℕ) (hl : p.length = q.length) (hp : 0 < p.sum)
    (hq : 0 < q.sum) : jsd p q = jsd_spec p q := by
  rw [jsd_eq_kl hl hp hq]
  unfold jsd_spec
  ring

/-- Witness for C1: the singleton histograms with counts 1 and 2. -/
theorem c1_witness :
    ([1] : List ℕ).length = ([2] : List ℕ).length ∧ 0 < ([1] : List ℕ).sum ∧
      0 < ([2] : List ℕ).sum ∧ jsd [1] [2] = jsd_spec [1] [2] :=
  ⟨rfl, by decide, by decide, c1_jsd_eq_spec [1] [2] rfl (by decide) (by decide)⟩

theorem jsd_bounds (p q : List ℕ) (hl : p.length = q.length) (hp : 0 < p.sum)
    (hq : 0 < q.sum) : 0 ≤ jsd p q ∧ jsd p q ≤ Real.log 2 := by
  rw [jsd_eq_kl hl hp hq]
  have hlen : (normalizeL p).length = (normalizeL q).length := by
    simp [normalizeL, hl]
  have hpn := normalizeL_nonneg p
  have hqn := normalizeL_nonneg q
  have hps := normalizeL_sum hp
  have hqs := normalizeL_sum hq
  have hm : (mixL (normalizeL p) (normalizeL q)).sum = 1 := by
    rw [mixL_sum _ _ hlen, hps, hqs]
    norm_num
  have hcomm : mixL (normalizeL p) (normalizeL q) = mixL (normalizeL q) (normalizeL p) :=
    mixL_comm _ _
  have h1 := klList_mix_ge (normalizeL p) (normalizeL q) hlen hpn hqn
  have h2 := klList_mix_ge (normalizeL q) (normalizeL p) hlen.symm hqn hpn
  rw [← hcomm] at h2
  have h3 := klList_mix_le (normalizeL p) (normalizeL q) hlen hpn hqn
  have h4 := klList_mix_le (normalizeL q) (normalizeL p) hlen.symm hqn hpn
  rw [← hcomm] at h4
  rw [hps, hm] at h1
  rw [hqs] at h2
  rw [hcomm, mixL_comm] at h2
  rw [hm] at h2
  rw [hps] at h3
  rw [hqs] at h4
  constructor
  · linarith
  · linarith

/-- C5: on equal-length histograms with positive sums, divergence returns an
ordinary float whose value lies in the closed interval from 0 to ln 2. -/
theorem c5_jsd_bounded (p q : List ℕ) (hl : p.length = q.length) (hp : 0 < p.sum)
    (hq : 0 < q.sum) :
    jsdPy p q = PyFloat.val (jsd p q) ∧ 0 ≤ jsd p q ∧ jsd p q ≤ Real.log 2 := by
  refine ⟨?_, jsd_bounds p q hl hp hq⟩
  unfold jsdPy
  rw [if_neg (by omega : ¬(p.sum = 0 ∨ q.sum = 0))]

/-- Witness for C5: two singleton histograms. -/
theorem c5_witness :
    ([1] : List ℕ).length = ([1] : List ℕ).length ∧ 0 < ([1] : List ℕ).sum ∧
      0 < ([1] : List ℕ).sum ∧
      (jsdPy [1] [1] = PyFloat.val (jsd [1] [1]) ∧ 0 ≤ jsd [1] [1] ∧
        jsd [1] [1] ≤ Real.log 2) :=
  ⟨rfl, by decide, by decide, c5_jsd_bounded [1] [1] rfl (by decide) (by decide)⟩

/-- C6: divergence is symmetric, both as the float-level function (the NaN
cases match because a zero sum on either side is symmetric) and as the real
value on valid inputs. -/
theorem c6_jsd_symm (p q : List ℕ) : jsdPy p q = jsdPy q p ∧ jsd p q = jsd q p := by
  have hjsd : jsd p q = jsd q p := by
    unfold jsd
    rw [mixL_comm (normalizeL p) (normalizeL q)]
    ring
  refine ⟨?_, hjsd⟩
  unfold jsdPy
  rw [hjsd]
  by_cases h : p.sum = 0 ∨ q.sum = 0
  · rw [if_pos h, if_pos (Or.symm h)]
  · rw [if_neg h, if_neg fun hc => h (Or.symm hc)]

/-- Counterexample for C2: at the histograms p = [0] (zero sum) and q = [1],
the code raises nothing -- jsd is a total function on this input: the 0/0
normalization produces NaN and the call returns the float NaN, so a result
value is returned and no DegenerateHistogram error exists (the source builds
no exception at all on this path). -/
theorem c2_counterexample : jsdPy [0] [1] = PyFloat.nan := by
  unfold jsdPy
  have h : ([0] : List ℕ).sum = 0 ∨ ([1] : List ℕ).sum = 0 := Or.inl (by decide)
  rw [if_pos h]

/-- C2 (amended): on equal-length histograms at least one of which sums to
zero, divergence returns the float NaN (from the 0/0 normalization) instead
of raising a DegenerateHistogram error. -/
theorem c2_zero_sum_nan (p q : List ℕ) (_hl : p.length = q.length)
    (h : p.sum = 0 ∨ q.sum = 0) : jsdPy p q = PyFloat.nan := by
  unfold jsdPy
  rw [if_pos h]

/-- Witness for C2: the zero histogram of length two against counts 1, 2. -/
theorem c2_witness :
    ([0, 0] : List ℕ).length = ([1, 2] : List ℕ).length ∧
      (([0, 0] : List ℕ).sum = 0 ∨ ([1, 2] : List ℕ).sum = 0) ∧
      jsdPy [0, 0] [1, 2] = PyFloat.nan :=
  ⟨rfl, Or.inl (by decide), c2_zero_sum_nan [0, 0] [1, 2] rfl (Or.inl (by decide))⟩

theorem jsd_self_10 : jsd [1, 0] [1, 0] = 0 := by
  have hn : normalizeL [1, 0] = [1, 0] := by
    unfold normalizeL
    norm_num
  have hm : mixL [(1 : ℝ), 0] [1, 0] = [1, 0] := by
    unfold mixL
    norm_num
  unfold jsd
  rw [hn, hm]
  have he : entropy [(1 : ℝ), 0] [1, 0] = 0 := by
    unfold entropy
    norm_num [relEntr]
  rw [he]
  ring

theorem anodi_nil {img0 : List (List ℕ)} {k : ℕ} {h0 : List ℕ}
    (hok0 : multipoint_histogram img0 k = Except.ok h0) :
    anodi img0 [] k = Except.error PyErr.valueError := by
  unfold anodi
  rw [hok0]
  rfl

theorem anodi_single {img0 img : List (List ℕ)} {k : ℕ} {h0 h1 : List ℕ}
    (hok0 : multipoint_histogram img0 k = Except.ok h0)
    (hok1 : multipoint_histogram img k = Except.ok h1) :
    anodi img0 [img] k = Except.ok (meanPy [jsdPy h0 h1], PyFloat.nan) := by
  unfold anodi
  rw [hok0]
  show ([img].mapM fun i => multipoint_histogram i k).bind
      (fun hs => (pdistJsd hs).bind fun dvs =>
        pure (meanPy (hs.map fun h => jsdPy h0 h), meanPy dvs)) = _
  have hm : ([img].mapM fun i => multipoint_histogram i k) = Except.ok [h1] := by
    show (multipoint_histogram img k).bind (fun b => pure [b]) = _
    rw [hok1]
    rfl
  rw [hm]
  rfl

/-- C3 (amended): anodi raises no InsufficientSamples error.  With zero
candidates it fails with the ValueError pdist raises on a non-2-D input;
with exactly one candidate it returns a normal (inconsistency, diversity)
pair whose diversity is the NaN that np.mean produces on the empty pdist
output. -/
theorem c3_few_candidates (img0 img : List (List ℕ)) (k : ℕ) (h0 h1 : List ℕ)
    (hok0 : multipoint_histogram img0 k = Except.ok h0)
    (hok1 : multipoint_histogram img k = Except.ok h1) :
    anodi img0 [] k = Except.error PyErr.valueError ∧
      anodi img0 [img] k = Except.ok (meanPy [jsdPy h0 h1], PyFloat.nan) :=
  ⟨anodi_nil hok0, anodi_single hok0 hok1⟩

/-- Witness for C3: the 1-by-1 zero image as reference and as the single
candidate, patch size 1. -/
theorem c3_witness :
    multipoint_histogram [[(0 : ℕ)]] 1 = Except.ok [1, 0] ∧
      (anodi [[(0 : ℕ)]] [] 1 = Except.error PyErr.valueError ∧
        anodi [[(0 : ℕ)]] [[[(0 : ℕ)]]] 1 =
          Except.ok (meanPy [jsdPy [1, 0] [1, 0]], PyFloat.nan)) :=
  ⟨rfl, c3_few_candidates [[(0 : ℕ)]] [[(0 : ℕ)]] 1 [1, 0] [1, 0] rfl rfl⟩

/-- Counterexample for C3: with the 1-by-1 zero image as reference and a
single identical candidate, anodi returns the concrete pair
(inconsistency 0, diversity NaN) -- a result value, not an
InsufficientSamples error (the source defines no such error and validates
nothing). -/
theorem c3_counterexample :
    anodi [[(0 : ℕ)]] [[[(0 : ℕ)]]] 1 = Except.ok (PyFloat.val 0, PyFloat.nan) := by
  have h := @anodi_single [[(0 : ℕ)]] [[(0 : ℕ)]] 1 [1, 0] [1, 0] rfl rfl
  have hjs : jsdPy [1, 0] [1, 0] = PyFloat.val 0 := by
    unfold jsdPy
    have hc : ¬(([1, 0] : List ℕ).sum = 0 ∨ ([1, 0] : List ℕ).sum = 0) := by decide
    rw [if_neg hc, jsd_self_10]
  have hmean : meanPy [PyFloat.val 0] = PyFloat.val 0 := by
    unfold meanPy
    norm_num [PyFloat.isNan, PyFloat.toReal]
  rw [hjs, hmean] at h
  exact h
